import Mathlib

/-!
Verification of the storage layer of the Aste_XiaoMeng plugin
(`model/data_managers.py`): the INI-backed Record Store (`IniFileReader`),
the JSON-backed Document Store (`BaseJsonFileHandler` and subclasses), and
the per-account fishing-log store (`UnifiedCreelManager`).

Python strings are embedded as `List Char` (code-point sequences); machine
behaviour that the claims exercise is ASCII or case-less CJK text, so
`str.lower`/`str.strip` are modelled on the ASCII range.  Python `int`/`float`
literal parsing is modelled per the language reference (optional surrounding
whitespace, optional sign, digit runs with interior underscores; float adds
fraction, exponent and the `inf`/`infinity`/`nan` specials).  A Python float
value is represented by its cleaned literal text: Python's `repr` guarantees
the canonical text of a finite float round-trips, and no claim distinguishes
two literals denoting the same IEEE double.
-/

namespace AsteXM

/-! ### Python string primitives -/

/-- Python string: a sequence of code points. -/
abbrev PyStr := List Char

/-- Whitespace characters stripped by `str.strip()` (ASCII range). -/
def pyWsChars : List Char := [' ', '\t', '\n', '\r', '\x0b', '\x0c']

/-- Is `c` whitespace for `str.strip()`? -/
def isWs (c : Char) : Bool := pyWsChars.contains c

/-- Left strip, as in `str.lstrip()`. -/
def stripL (s : PyStr) : PyStr := s.dropWhile isWs

/-- Right strip, as in `str.rstrip()`. -/
def stripR (s : PyStr) : PyStr := (s.reverse.dropWhile isWs).reverse

/-- `str.strip()`. -/
def pyStrip (s : PyStr) : PyStr := stripR (stripL s)

/-- ASCII case folding of one character, as `str.lower()` acts on ASCII. -/
def lowCh (c : Char) : Char :=
  if 65 ≤ c.toNat ∧ c.toNat ≤ 90 then Char.ofNat (c.toNat + 32) else c

/-- `str.lower()`. -/
def pyLower (s : PyStr) : PyStr := s.map lowCh

/-! ### Python int() / float() literal parsing -/

/-- Numeric value of a digit character. -/
def digitVal (c : Char) : Nat := c.toNat - 48

/-- Value of a big-endian digit string. -/
def digitsToNat (s : PyStr) : Nat := s.foldl (fun a c => 10 * a + digitVal c) 0

/-- Scanner for a digit run with interior underscores (Python numeric
literals): `prev` records whether the previous character was a digit; an
underscore must be preceded and followed by a digit, and the run must be
nonempty and end in a digit. -/
def udGo : Bool → PyStr → Bool
  | prev, [] => prev
  | prev, c :: cs =>
      if c.isDigit then udGo true cs
      else if c = '_' then prev && udGo false cs
      else false

/-- A valid Python digit run (digits with interior underscores). -/
def validUD (s : PyStr) : Bool := udGo false s

/-- Remove underscores from a numeric literal. -/
def dropUS (s : PyStr) : PyStr := s.filter (fun c => c ≠ '_')

/-- Split one optional leading sign; returns (isNegative, rest). -/
def splitSign : PyStr → Bool × PyStr
  | [] => (false, [])
  | c :: rest =>
      if c = '+' then (false, rest)
      else if c = '-' then (true, rest)
      else (false, c :: rest)

/-- Python `int(str)` on a string argument: strip whitespace, optional sign,
then a digit run with interior underscores. -/
def pyIntParse (s : PyStr) : Option Int :=
  let t := pyStrip s
  let p := splitSign t
  if validUD p.2 then
    let n : Int := (digitsToNat (dropUS p.2) : Int)
    some (if p.1 then -n else n)
  else none

/-- Split a list at the first character satisfying `p`; returns the parts
before and after it, or `none` if no character satisfies `p`. -/
def splitFirst (p : Char → Bool) : PyStr → Option (PyStr × PyStr)
  | [] => none
  | c :: cs =>
      if p c then some ([], cs)
      else match splitFirst p cs with
           | some q => some (c :: q.1, q.2)
           | none => none

/-- Validity of a float mantissa: `digits`, `digits.`, `.digits` or
`digits.digits`, each digit group a valid underscore run. -/
def mantValid (m : PyStr) : Bool :=
  match splitFirst (fun c => c = '.') m with
  | none => validUD m
  | some q =>
      (q.1.isEmpty || validUD q.1) && (q.2.isEmpty || validUD q.2) &&
        !(q.1.isEmpty && q.2.isEmpty)

/-- Validity of a float exponent: optional sign then a digit run. -/
def expValid (s : PyStr) : Bool := validUD (splitSign s).2

/-- The special float literals accepted case-insensitively by `float()`. -/
def floatSpecials : List PyStr := ["inf".toList, "infinity".toList, "nan".toList]

/-- Does `float(str)` accept this string? -/
def pyFloatValid (s : PyStr) : Bool :=
  let t := pyStrip s
  let u := (splitSign t).2
  if floatSpecials.contains (pyLower u) then true
  else
    match splitFirst (fun c => c = 'e' || c = 'E') u with
    | none => mantValid u
    | some q => mantValid q.1 && expValid q.2

/-- Cleaned literal kept as the representation of a parsed float value. -/
def floatClean (s : PyStr) : PyStr := pyLower (dropUS (pyStrip s))

/-- Python `float(str)`: the parsed value, represented by its cleaned
literal. -/
def pyFloatParse (s : PyStr) : Option PyStr :=
  if pyFloatValid s then some (floatClean s) else none

/-! ### Value coercion (`IniFileReader._convert_value` /
`_convert_to_ini_string`) -/

/-- Scalar values handled by the Record Store.  Python's `bool` is a subclass
of `int`; the embedding keeps them as separate constructors, matching the
`isinstance(value, bool)`-before-`int` check order of the source. -/
inductive IniValue
  | int : Int → IniValue
  | float : PyStr → IniValue
  | bool : Bool → IniValue
  | str : PyStr → IniValue
deriving DecidableEq, Repr

/-- Keywords coerced to `True` (case-insensitive). -/
def trueKws : List PyStr := ["true".toList, "yes".toList, "on".toList]

/-- Keywords coerced to `False` (case-insensitive). -/
def falseKws : List PyStr := ["false".toList, "no".toList, "off".toList]

/-- `IniFileReader._convert_value`: try `int()`, then `float()`, then the
case-insensitive boolean keywords, else return the stripped string. -/
def convertValue (v : PyStr) : IniValue :=
  match pyIntParse v with
  | some n => .int n
  | none =>
    match pyFloatParse v with
    | some f => .float f
    | none =>
      let lv := pyLower (pyStrip v)
      if lv ∈ trueKws then .bool true
      else if lv ∈ falseKws then .bool false
      else .str (pyStrip v)

/-- Worker for `natToDigitsRev`; structural recursion on a fuel argument so
that the definition evaluates inside the kernel. -/
def natToDigitsRevGo : Nat → Nat → List Char
  | 0, _ => []
  | fuel + 1, n =>
      if n < 10 then [Char.ofNat (48 + n)]
      else Char.ofNat (48 + n % 10) :: natToDigitsRevGo fuel (n / 10)

/-- Decimal digits of `n`, least significant first. -/
def natToDigitsRev (n : Nat) : List Char := natToDigitsRevGo (n + 1) n

/-- Python `str(n)` for a natural number. -/
def natToStr (n : Nat) : PyStr := (natToDigitsRev n).reverse

/-- Python `str(z)` for an integer. -/
def intToStr : Int → PyStr
  | .ofNat n => natToStr n
  | .negSucc m => '-' :: natToStr (m + 1)

/-- `IniFileReader._convert_to_ini_string`: booleans to lowercase
`true`/`false`, numbers to their default string form, strings as-is. -/
def convertToIniString : IniValue → PyStr
  | .bool b => if b then "true".toList else "false".toList
  | .int n => intToStr n
  | .float f => f
  | .str s => s

/-! ### The in-memory INI table (`configparser` as used by `IniFileReader`)

`configparser` keeps sections in insertion order; each section is an
insertion-ordered mapping from option name to string value, and
`optionxform` lowercases every option name on `set` and on parse.  Values
are stored as strings and coerced with `_convert_value` on read. -/

/-- First-match association-list lookup (Python `dict` access). -/
def alookup {α : Type} : List (PyStr × α) → PyStr → Option α
  | [], _ => none
  | (k', v) :: t, k => if k' = k then some v else alookup t k

/-- One INI section: insertion-ordered option/value pairs. -/
abbrev IniSection := List (PyStr × PyStr)

/-- The in-memory table: insertion-ordered sections. -/
abbrev IniConfig := List (PyStr × IniSection)

/-- `config.has_section`. -/
def hasSec (c : IniConfig) (s : PyStr) : Bool := (alookup c s).isSome

/-- `config.add_section`: appends an empty section. -/
def addSec (c : IniConfig) (s : PyStr) : IniConfig := c ++ [(s, [])]

/-- Set one option in a section: replace in place if present (keeping its
position), else append (Python `dict` update semantics). -/
def setKV (sec : IniSection) (k v : PyStr) : IniSection :=
  match sec with
  | [] => [(k, v)]
  | (k', v') :: t => if k' = k then (k, v) :: t else (k', v') :: setKV t k v

/-- Apply `f` to the section named `s` (first match), leaving the rest. -/
def mapSec (c : IniConfig) (s : PyStr) (f : IniSection → IniSection) : IniConfig :=
  match c with
  | [] => []
  | (n, sec) :: t => if n = s then (n, f sec) :: t else (n, sec) :: mapSec t s f

/-- `IniFileReader.update_key`: create the section if absent, then
`config.set(section, key, str_value)` — `optionxform` lowercases the key and
the value is serialized with `_convert_to_ini_string`. -/
def updateKey (c : IniConfig) (s k : PyStr) (v : IniValue) : IniConfig :=
  let c1 := if hasSec c s then c else addSec c s
  mapSec c1 s (fun sec => setKV sec (pyLower k) (convertToIniString v))

/-- `IniFileReader.update_section_keys`: create the section if absent, build
the serialized temp dict, and apply it with `config[section].update`, which
lowercases each key via `optionxform`.  `m` is the item list of the argument
dict. -/
def updateSectionKeys (c : IniConfig) (s : PyStr) (m : List (PyStr × IniValue)) :
    IniConfig :=
  let c1 := if hasSec c s then c else addSec c s
  mapSec c1 s (fun sec =>
    m.foldl (fun acc kv => setKV acc (pyLower kv.1) (convertToIniString kv.2)) sec)

/-- `_parse_config` restricted to one section: coerce every value. -/
def parseSec (sec : IniSection) : List (PyStr × IniValue) :=
  sec.map (fun kv => (kv.1, convertValue kv.2))

/-- `IniFileReader.read_section(section, create_if_not_exists)`: on a missing
section return `{}`, materializing the empty section in memory when asked to;
on a present section return its coerced contents.  The pair is
(returned mapping, in-memory table afterwards). -/
def readSection (c : IniConfig) (s : PyStr) (createIfNotExists : Bool) :
    List (PyStr × IniValue) × IniConfig :=
  match alookup c s with
  | none => ([], if createIfNotExists then addSec c s else c)
  | some sec => (parseSec sec, c)

/-- `config.write` output for one section: `[name]` header, one
`key = value` line per option, then a blank line. -/
def secLines (name : PyStr) (sec : IniSection) : List PyStr :=
  ('[' :: name ++ [']']) ::
    (sec.map (fun kv => kv.1 ++ " = ".toList ++ kv.2) ++ [[]])

/-- `config.write` output for the whole table, as a list of lines. -/
def iniLines (c : IniConfig) : List PyStr := (c.map (fun ns => secLines ns.1 ns.2)).flatten

/-- A Record Store instance: the in-memory table plus the file contents on
disk (`none` = file absent). -/
structure IniStore where
  conf : IniConfig
  disk : Option (List PyStr)
deriving Repr

/-- `read_section` on a store: touches only the in-memory table. -/
def stReadSection (st : IniStore) (s : PyStr) (create : Bool) :
    List (PyStr × IniValue) × IniStore :=
  let r := readSection st.conf s create
  (r.1, { st with conf := r.2 })

/-- `update_key` on a store: touches only the in-memory table. -/
def stUpdateKey (st : IniStore) (s k : PyStr) (v : IniValue) : IniStore :=
  { st with conf := updateKey st.conf s k v }

/-- `update_section_keys` on a store: touches only the in-memory table. -/
def stUpdateSectionKeys (st : IniStore) (s : PyStr) (m : List (PyStr × IniValue)) :
    IniStore :=
  { st with conf := updateSectionKeys st.conf s m }

/-- `save()` on a store: serializes the full in-memory table to disk. -/
def stSave (st : IniStore) : IniStore :=
  { st with disk := some (iniLines st.conf) }

/-! ### The Document Store tree (`BaseJsonFileHandler`) -/

/-- JSON-shaped values.  The claims only exercise integer numerics, so `num`
carries an `Int`. -/
inductive Json
  | null : Json
  | bool : Bool → Json
  | num : Int → Json
  | str : PyStr → Json
  | arr : List Json → Json
  | obj : List (PyStr × Json) → Json

/-- Python types usable as `expected_type` in `update_data`. -/
inductive JTy
  | dictTy | listTy | strTy | intTy | boolTy
deriving DecidableEq, Repr

/-- `isinstance(value, expected_type)`.  Python's `bool` is a subclass of
`int`, so a boolean passes an `int` check. -/
def jsonIs : JTy → Json → Bool
  | .dictTy, .obj _ => true
  | .listTy, .arr _ => true
  | .strTy, .str _ => true
  | .intTy, .num _ => true
  | .intTy, .bool _ => true
  | .boolTy, .bool _ => true
  | _, _ => false

/-- Split a list on a separator character, keeping empty parts
(Python `str.split(".")`). -/
def splitCh (c : Char) : PyStr → List PyStr
  | [] => [[]]
  | x :: xs =>
      match splitCh c xs with
      | [] => [[]]
      | h :: t => if x = c then [] :: h :: t else (x :: h) :: t

/-- Set one field of a JSON object (`dict.__setitem__`): replace in place if
present, else append. -/
def setField (fields : List (PyStr × Json)) (k : PyStr) (v : Json) :
    List (PyStr × Json) :=
  match fields with
  | [] => [(k, v)]
  | (k', v') :: t => if k' = k then (k, v) :: t else (k', v') :: setField t k v

/-- The intermediate-key walk of `update_data`: for each key, create an empty
dict if the key is missing, step into the child, and stop with the offending
key if the child is not a dict.  Mirrors the in-place Python loop: creations
made before a conflict is detected are kept in the returned tree. -/
def walkCreate (cur : List (PyStr × Json)) :
    List PyStr → List (PyStr × Json) × Option PyStr
  | [] => (cur, none)
  | k :: ks =>
      match alookup cur k with
      | none =>
          let r := walkCreate [] ks
          (setField cur k (.obj r.1), r.2)
      | some (.obj sub) =>
          let r := walkCreate sub ks
          (setField cur k (.obj r.1), r.2)
      | some _ => (cur, some k)

/-- Write `v` at the walked path (all intermediate dicts exist after a
successful `walkCreate`). -/
def setPath (cur : List (PyStr × Json)) :
    List PyStr → PyStr → Json → List (PyStr × Json)
  | [], last, v => setField cur last v
  | k :: ks, last, v =>
      match alookup cur k with
      | some (.obj sub) => setField cur k (.obj (setPath sub ks last v))
      | _ => cur

/-- Errors raised by `update_data` (all `ValueError` in the source; the spec
names the intermediate-non-dict case `PathConflict` and the failed
`expected_type` check `TypeMismatch`). -/
inductive UpdErr
  | emptyKey
  | pathConflict : PyStr → UpdErr
  | typeMismatch
deriving DecidableEq, Repr

/-- `BaseJsonFileHandler.update_data`: reject an empty key, split the dotted
path, walk/auto-create the intermediate dicts (keeping creations made before
a conflict), check `expected_type` when `validate` is set, then write the
final key.  Returns the in-memory tree afterwards and the error, if any. -/
def updateData (d : List (PyStr × Json)) (key : PyStr) (v : Json)
    (validate : Bool) (expected : Option JTy) :
    List (PyStr × Json) × Option UpdErr :=
  if key.isEmpty then (d, some .emptyKey)
  else
    let ks := splitCh '.' key
    let inter := ks.dropLast
    let last := ks.getLastD []
    let w := walkCreate d inter
    match w.2 with
    | some k => (w.1, some (.pathConflict k))
    | none =>
        let bad := match expected with
                   | none => false
                   | some t => !(jsonIs t v)
        if validate && bad then (w.1, some .typeMismatch)
        else (setPath w.1 inter last v, none)

/-- `BaseJsonFileHandler.__getitem__`: a plain top-level `dict` lookup on the
raw key — no dotted-path navigation.  `Except.error k` models the `KeyError`
Python raises when the key is absent. -/
def dictGetItem (fields : List (PyStr × Json)) (k : PyStr) : Except PyStr Json :=
  match alookup fields k with
  | some v => .ok v
  | none => .error k

/-- Modelled from the spec (§4.5 `get(path)`), for comparison with the code:
"navigates the dotted path; missing intermediate keys yield a 'not found'
result rather than raising".  Not present in the source, whose only generic
read is `__getitem__`. -/
def specGet (fields : List (PyStr × Json)) (path : PyStr) : Option Json :=
  let rec go (cur : List (PyStr × Json)) : List PyStr → Option Json
    | [] => none
    | [k] => alookup cur k
    | k :: ks =>
        match alookup cur k with
        | some (.obj sub) => go sub ks
        | _ => none
  go fields (splitCh '.' path)

/-- `JobFileHandler.get_job_info`: 4-character id, first two characters pick
the series; missing series or id give `{}`.  A series node is assumed to be a
dict, as in the shipped data files (on a non-dict node Python's `.get`
chaining would raise instead). -/
def getJobInfo (data : List (PyStr × Json)) (jobId : PyStr) : Json :=
  if jobId.length ≠ 4 then .obj []
  else
    match alookup data (jobId.take 2) with
    | some (.obj series) => ((alookup series jobId).getD (.obj []))
    | _ => .obj []

/-! ### Fuzzy job-name lookup (`JobFileHandler.get_job_info_ex` /
`_calculate_match_score`)

Catalog entries are modelled by their `jobName` field, the only field the
lookup and its sort key inspect.  Scores are exact rationals, carried as
unreduced integer fractions (`Frac`) so that the arithmetic evaluates inside
the kernel; on the inputs the claims evaluate, every Python float operation
involved is exact, so the fraction's value coincides with the float the
source computes. -/

/-- An unreduced fraction with positive denominator (kept positive by every
operation below). -/
structure Frac where
  num : Int
  den : Int
deriving DecidableEq, Repr

/-- Embed an integer. -/
def Frac.ofInt (n : Int) : Frac := ⟨n, 1⟩

/-- Fraction addition. -/
def Frac.add (a b : Frac) : Frac := ⟨a.num * b.den + b.num * a.den, a.den * b.den⟩

/-- Fraction subtraction. -/
def Frac.sub (a b : Frac) : Frac := ⟨a.num * b.den - b.num * a.den, a.den * b.den⟩

/-- Fraction multiplication. -/
def Frac.mul (a b : Frac) : Frac := ⟨a.num * b.num, a.den * b.den⟩

/-- Fraction division (keeping the denominator positive for a nonzero
divisor). -/
def Frac.div (a b : Frac) : Frac :=
  if b.num < 0 then ⟨-(a.num * b.den), a.den * (-b.num)⟩
  else ⟨a.num * b.den, a.den * b.num⟩

/-- Value comparison (valid for positive denominators). -/
def Frac.le (a b : Frac) : Bool := decide (a.num * b.den ≤ b.num * a.den)

/-- Strict value comparison (valid for positive denominators). -/
def Frac.lt (a b : Frac) : Bool := decide (a.num * b.den < b.num * a.den)

/-- Value equality (valid for positive denominators). -/
def Frac.eqv (a b : Frac) : Bool := decide (a.num * b.den = b.num * a.den)

/-- Python `min`. -/
def Frac.minF (a b : Frac) : Frac := if Frac.le a b then a else b

/-- The rational value of a fraction. -/
def Frac.val (f : Frac) : ℚ := (f.num : ℚ) / (f.den : ℚ)

/-- A catalog entry, reduced to the field the fuzzy lookup reads. -/
structure JobInfo where
  jobName : PyStr
deriving DecidableEq, Repr

/-- The job catalog: series keyed by 2-character prefix, jobs keyed by id. -/
abbrev JobData := List (PyStr × List (PyStr × JobInfo))

/-- Worker for `splitWs` (fuel = remaining length). -/
def splitWsGo : Nat → PyStr → List PyStr
  | 0, _ => []
  | fuel + 1, s =>
      match s.dropWhile isWs with
      | [] => []
      | c :: cs =>
          let w := (c :: cs).takeWhile (fun x => !isWs x)
          w :: splitWsGo fuel ((c :: cs).drop w.length)

/-- Python `str.split()` with no separator: whitespace runs, no empties. -/
def splitWs (s : PyStr) : List PyStr := splitWsGo s.length s

/-- Distinct keywords in first-occurrence order (`Counter(...).items()`
iteration order; the stored counts are not used by the score). -/
def counterKeys (l : List PyStr) : List PyStr :=
  l.foldl (fun acc k => if k ∈ acc then acc else acc ++ [k]) []

/-- Worker for `countOcc` (fuel = remaining length). -/
def countOccGo (pat : PyStr) : Nat → PyStr → Nat
  | 0, _ => 0
  | fuel + 1, s =>
      match s with
      | [] => 0
      | c :: rest =>
          if pat.isPrefixOf (c :: rest) then
            1 + countOccGo pat fuel ((c :: rest).drop pat.length)
          else countOccGo pat fuel rest

/-- Python `str.count`: non-overlapping occurrence count. -/
def countOcc (pat s : PyStr) : Nat :=
  if pat.isEmpty then s.length + 1 else countOccGo pat s.length s

/-- Python substring containment (`pat in s`). -/
def isSub (pat : PyStr) : PyStr → Bool
  | [] => pat.isEmpty
  | c :: cs => pat.isPrefixOf (c :: cs) || isSub pat cs

/-- `JobFileHandler._calculate_match_score`: substring contributions
normalized by total keyword length and capped at 100 each, a 300 bonus for
the contiguous concatenation, a 200 bonus for a first-keyword prefix match,
all capped so the total never exceeds 1000. -/
def matchScore (jobName : PyStr) (kws : List PyStr) : Frac :=
  let maxPossible : Frac := Frac.ofInt ((kws.map List.length).sum : Int)
  if maxPossible.num = 0 then Frac.ofInt 0
  else
    let s1 : Frac := (counterKeys kws).foldl (fun sc kw =>
      if isSub kw jobName then
        sc.add (Frac.minF
          (((Frac.ofInt ((countOcc kw jobName : Int) * (kw.length : Int))).div
              maxPossible).mul (Frac.ofInt 100))
          (Frac.ofInt 100))
      else sc) (Frac.ofInt 0)
    let s2 : Frac :=
      if isSub kws.flatten jobName then
        s1.add (Frac.minF (Frac.ofInt 300) ((Frac.ofInt 1000).sub s1))
      else s1
    let s3 : Frac :=
      match kws with
      | [] => s2
      | k :: _ =>
          if k = jobName.take k.length then
            s2.add (Frac.minF (Frac.ofInt 200) ((Frac.ofInt 1000).sub s2))
          else s2
    Frac.minF s3 (Frac.ofInt 1000)

/-- One collected match: the entry, its score, and the keywords found in the
entry's (lowercased, stripped) name. -/
structure MatchEntry where
  info : JobInfo
  score : Frac
  matchedKws : List PyStr
deriving Repr

/-- The sort order of `get_job_info_ex`: ascending in the Python key
`(-score, -len(matched_keywords), len(jobName))`. -/
def entryLe (a b : MatchEntry) : Bool :=
  if !(a.score.eqv b.score) then b.score.lt a.score
  else if a.matchedKws.length ≠ b.matchedKws.length then
    b.matchedKws.length < a.matchedKws.length
  else a.info.jobName.length ≤ b.info.jobName.length

/-- Stable insertion into a sorted list: `x` goes after every `y` with
`le y x`, as in Python's stable ascending sort. -/
def insLe {α : Type} (le : α → α → Bool) (x : α) : List α → List α
  | [] => [x]
  | y :: ys => if le y x then y :: insLe le x ys else x :: y :: ys

/-- Stable ascending sort (insertion sort). -/
def sortStable {α : Type} (le : α → α → Bool) (l : List α) : List α :=
  l.foldl (fun acc x => insLe le x acc) []

/-- `JobFileHandler.get_job_info_ex`: clean and lowercase the whitespace-split
keywords, score every catalog entry with a nonempty name, keep the entries
with positive score, sort by the Python key, and return the entries. -/
def getJobInfoEx (data : JobData) (query : PyStr) : List JobInfo :=
  let raw := splitWs (pyStrip query)
  if raw.isEmpty then []
  else
    let kws := (raw.filter (fun kw => !(pyStrip kw).isEmpty)).map pyLower
    if kws.isEmpty then []
    else
      let matched := data.foldl (fun acc series =>
        series.2.foldl (fun acc2 job =>
          let nameFull := pyLower (pyStrip job.2.jobName)
          if nameFull.isEmpty then acc2
          else
            let sc := matchScore nameFull kws
            if (Frac.ofInt 0).lt sc then
              acc2 ++ [⟨job.2, sc, kws.filter (fun kw => isSub kw nameFull)⟩]
            else acc2) acc) ([] : List MatchEntry)
      (sortStable entryLe matched).map (fun e => e.info)

/-! ### Save traces: the atomic-write primitive and the fishing-log save

`IniFileReader.save` and `BaseJsonFileHandler.save` write the serialized
payload to a `NamedTemporaryFile` in the target's directory and
`os.replace` it over the target (the POSIX branch of the source; on NT the
handle is closed first, with the same trace up to the no-op close).
`UnifiedCreelManager._save_data` instead opens the data file itself with
mode `"w"` and dumps into it.  A crash is modelled by executing a prefix of
the trace. -/

/-- One filesystem step taken by a save routine. -/
inductive SaveStep
  | createTemp : SaveStep
  | writeTemp : PyStr → SaveStep
  | fsyncTemp : SaveStep
  | closeTemp : SaveStep
  | replaceTempTarget : SaveStep
  | openTargetTrunc : SaveStep
  | writeTarget : PyStr → SaveStep
  | closeTarget : SaveStep
deriving DecidableEq, Repr

/-- Contents of the target file and of the temporary file (`none` =
absent). -/
structure Disk where
  target : Option PyStr
  temp : Option PyStr
deriving DecidableEq, Repr

/-- Effect of one save step on the two files. -/
def stepFs (d : Disk) : SaveStep → Disk
  | .createTemp => { d with temp := some [] }
  | .writeTemp s => { d with temp := some ((d.temp.getD []) ++ s) }
  | .fsyncTemp => d
  | .closeTemp => d
  | .replaceTempTarget => { target := d.temp, temp := none }
  | .openTargetTrunc => { d with target := some [] }
  | .writeTarget s => { d with target := some ((d.target.getD []) ++ s) }
  | .closeTarget => d

/-- Run a list of save steps. -/
def runFs (d : Disk) (l : List SaveStep) : Disk := l.foldl stepFs d

/-- The trace of `IniFileReader.save` (POSIX branch): temp file, full write,
flush+fsync, atomic replace, close. -/
def iniSaveSteps (payload : PyStr) : List SaveStep :=
  [.createTemp, .writeTemp payload, .fsyncTemp, .replaceTempTarget, .closeTemp]

/-- The trace of `BaseJsonFileHandler.save`: temp file, full dump, close (end
of the `with` block), atomic replace. -/
def jsonSaveSteps (payload : PyStr) : List SaveStep :=
  [.createTemp, .writeTemp payload, .closeTemp, .replaceTempTarget]

/-- The trace of `UnifiedCreelManager._save_data`: open the data file itself
truncating it, dump, close.  No temporary file and no rename. -/
def creelSaveSteps (payload : PyStr) : List SaveStep :=
  [.openTargetTrunc, .writeTarget payload, .closeTarget]

/-- A trace is atomic for the target when every crash prefix leaves the
target either untouched or holding the complete new payload. -/
def AtomicFor (steps : List SaveStep) (payload : PyStr) : Prop :=
  ∀ d : Disk, ∀ k : Nat,
    (runFs d (steps.take k)).target = d.target ∨
      (runFs d (steps.take k)).target = some payload

/-! ### Lock acquisition (`filelock.FileLock`)

`FileLock(path)` keeps the library default `timeout=-1`, which blocks
without limit; `FileLock(path, timeout=5)` polls for at most 5 seconds and
then raises `filelock.Timeout`.  `acquireLock t free` resolves an
acquisition attempt with timeout `t` (`none` = block without limit) against
a lock that becomes free at time `free` (`none` = never). -/

/-- Lock path of `IniFileReader.save`: the data file path suffixed
`.lock`. -/
def iniLockPath (filePath : String) : String := filePath ++ ".lock"

/-- Lock path of `BaseJsonFileHandler.save`: the data file path suffixed
`.lock`. -/
def jsonLockPath (filePath : String) : String := filePath ++ ".lock"

/-- Lock path of `UnifiedCreelManager`: the fixed name `.unified_creel.lock`
in the save directory, independent of `data_filename`. -/
def creelLockPath (saveDir : String) : String := saveDir ++ "/.unified_creel.lock"

/-- Timeout passed by `IniFileReader.save`: none (filelock default `-1`). -/
def iniLockTimeout : Option ℚ := none

/-- Timeout passed by `BaseJsonFileHandler.save`: none (filelock default
`-1`). -/
def jsonLockTimeout : Option ℚ := none

/-- Timeout passed by `UnifiedCreelManager._save_data`: 5 seconds. -/
def creelLockTimeout : Option ℚ := some 5

/-- Outcome of a lock acquisition attempt. -/
inductive AcquireOutcome
  | acquired : AcquireOutcome
  | lockTimeout : AcquireOutcome
  | blockedForever : AcquireOutcome
deriving DecidableEq, Repr

/-- Resolve an acquisition attempt with timeout `t` against a lock becoming
free at `free`. -/
def acquireLock (t free : Option ℚ) : AcquireOutcome :=
  match free, t with
  | some r, some tv => if r ≤ tv then .acquired else .lockTimeout
  | some _, none => .acquired
  | none, some _ => .lockTimeout
  | none, none => .blockedForever

/-! ### Derived notions used by the theorems -/

/-- Store-then-read composition: serialize with `_convert_to_ini_string`,
read back through `_convert_value`. -/
def roundTrip (v : IniValue) : IniValue := convertValue (convertToIniString v)

/-- A nonempty all-digit string. -/
def IsDigits (s : PyStr) : Prop := s ≠ [] ∧ ∀ c ∈ s, c.isDigit = true

/-- Fraction part of a canonical float representation. -/
def fpPart : Option PyStr → PyStr
  | none => []
  | some f => '.' :: f

/-- Exponent part of a canonical float representation. -/
def exPart : Option (Bool × PyStr) → PyStr
  | none => []
  | some p => 'e' :: (if p.1 then '-' else '+') :: p.2

/-- Body of a canonical float representation: integer digits, optional
fraction digits, optional signed exponent digits. -/
def canonCore (ip : PyStr) (fp : Option PyStr) (ex : Option (Bool × PyStr)) :
    PyStr :=
  ip ++ fpPart fp ++ exPart ex

/-- The shapes produced by Python `str(float)` for non-NaN values:
`inf`/`-inf`, or an optionally negated `digits[.digits][e±digits]` with at
least a fraction or an exponent present. -/
def IsCanonFloatRepr (r : PyStr) : Prop :=
  r = "inf".toList ∨ r = '-' :: "inf".toList ∨
    ∃ (neg : Bool) (ip : PyStr) (fp : Option PyStr) (ex : Option (Bool × PyStr)),
      IsDigits ip ∧ (∀ f, fp = some f → IsDigits f) ∧
      (∀ p, ex = some p → IsDigits p.2) ∧
      (fp ≠ none ∨ ex ≠ none) ∧
      r = (if neg then '-' :: canonCore ip fp ex else canonCore ip fp ex)

/-- All option names of a section are fixed points of `str.lower`. -/
def SecKeysLower (sec : IniSection) : Prop := ∀ kv ∈ sec, pyLower kv.1 = kv.1

/-- All option names of the whole table are fixed points of `str.lower`. -/
def ConfKeysLower (c : IniConfig) : Prop := ∀ ns ∈ c, SecKeysLower ns.2

/-- Lookup of an option inside a section of the table. -/
def lookup2 (c : IniConfig) (s k : PyStr) : Option PyStr :=
  (alookup c s).bind (fun sec => alookup sec k)

/-- The three-item catalog of the fuzzy-lookup scenario, with the item names
as job names. -/
def heartsCatalog : JobData :=
  [("10".toList,
    [("1000".toList, ⟨"小心心".toList⟩),
     ("1001".toList, ⟨"小红心".toList⟩),
     ("1002".toList, ⟨"大心心".toList⟩)])]

/-- ASCII letter test. -/
def isAlphaAscii (c : Char) : Bool :=
  (65 ≤ c.toNat ∧ c.toNat ≤ 90) ∨ (97 ≤ c.toNat ∧ c.toNat ≤ 122)

/-- The document `{"a": {"b": 1}}` of the path-conflict scenario. -/
def demoDoc : List (PyStr × Json) :=
  [("a".toList, Json.obj [("b".toList, Json.num 1)])]

/-! ## Theorems -/

/-! ### Save traces and locks (C1, C4) -/

/-- Every crash prefix of the Record Store save trace leaves the target file
untouched before the rename and fully replaced from it on. -/
theorem atomicFor_ini (p : PyStr) : AtomicFor (iniSaveSteps p) p := by
  intro d k
  match k with
  | 0 => exact Or.inl rfl
  | 1 => exact Or.inl rfl
  | 2 => exact Or.inl rfl
  | 3 => exact Or.inl rfl
  | 4 => exact Or.inr rfl
  | n + 5 =>
      right
      have h : (iniSaveSteps p).take (n + 5) = iniSaveSteps p := by
        apply List.take_of_length_le
        simp [iniSaveSteps]
      rw [h]
      rfl

/-- Every crash prefix of the Document Store save trace leaves the target
file untouched before the rename and fully replaced from it on. -/
theorem atomicFor_json (p : PyStr) : AtomicFor (jsonSaveSteps p) p := by
  intro d k
  match k with
  | 0 => exact Or.inl rfl
  | 1 => exact Or.inl rfl
  | 2 => exact Or.inl rfl
  | 3 => exact Or.inl rfl
  | n + 4 =>
      right
      have h : (jsonSaveSteps p).take (n + 4) = jsonSaveSteps p := by
        apply List.take_of_length_le
        simp [jsonSaveSteps]
      rw [h]
      rfl

/-- C1: the claim says every store's `save()` — including the fishing-log
store — writes to a temp file in the target's directory and renames it over
the target, so a failed save never truncates the original.  The Record Store
and Document Store traces are atomic in this sense, but
`UnifiedCreelManager._save_data` opens the data file itself with mode `"w"`,
so a crash right after the open (e.g. disk full during the dump) leaves the
original file truncated to empty — contradicting its own docstring
(`原子化保存`, atomic save). -/
theorem creel_save_truncates_on_crash :
    (∀ p : PyStr, AtomicFor (iniSaveSteps p) p) ∧
    (∀ p : PyStr, AtomicFor (jsonSaveSteps p) p) ∧
    runFs ⟨some ("OLD".toList), none⟩ ((creelSaveSteps ("NEW".toList)).take 1) =
      ⟨some [], none⟩ ∧
    (some ([] : PyStr) ≠ some ("OLD".toList) ∧
     some ([] : PyStr) ≠ some ("NEW".toList)) :=
  ⟨atomicFor_ini, atomicFor_json, rfl, by decide, by decide⟩

/-- C4 counterexample: the claim says every `save()` acquires its lock with a
finite timeout and fails with `LockTimeout` on expiry, but
`IniFileReader.save` and `BaseJsonFileHandler.save` construct
`FileLock(f"{path}.lock")` with the library default timeout `-1`: against a
lock that is never released, acquisition blocks forever instead of raising. -/
theorem ini_save_lock_blocks_forever :
    iniLockTimeout = none ∧ jsonLockTimeout = none ∧
    acquireLock iniLockTimeout none = AcquireOutcome.blockedForever ∧
    acquireLock jsonLockTimeout none = AcquireOutcome.blockedForever :=
  ⟨rfl, rfl, rfl, rfl⟩

/-- C4 amended: only the fishing-log store's `_save_data` passes a finite
lock timeout (5 seconds), timing out distinctly when the lock stays held;
the Record Store and Document Store saves use the filelock default (no
timeout, block indefinitely) at the data-file path suffixed `.lock`, while
the fishing-log lock lives at the fixed name `.unified_creel.lock` in the
save directory, not at a path derived from the data file. -/
theorem store_lock_configuration :
    iniLockTimeout = none ∧ jsonLockTimeout = none ∧
    creelLockTimeout = some 5 ∧
    (∀ p, iniLockPath p = p ++ ".lock") ∧
    (∀ p, jsonLockPath p = p ++ ".lock") ∧
    (∀ dir, creelLockPath dir = dir ++ "/.unified_creel.lock") ∧
    acquireLock creelLockTimeout none = AcquireOutcome.lockTimeout ∧
    (∀ r, acquireLock iniLockTimeout (some r) = AcquireOutcome.acquired) ∧
    acquireLock iniLockTimeout none = AcquireOutcome.blockedForever :=
  ⟨rfl, rfl, rfl, fun _ => rfl, fun _ => rfl, fun _ => rfl, rfl, fun _ => rfl, rfl⟩

/-! ### Record Store table lemmas (C5, C8, C10) -/

/-- Appending a fresh section leaves lookups of other names unchanged. -/
theorem alookup_append_ne {α : Type} (c : List (PyStr × α)) {s s' : PyStr}
    (x : α) (h : s' ≠ s) : alookup (c ++ [(s, x)]) s' = alookup c s' := by
  induction c with
  | nil => simp [alookup, Ne.symm h]
  | cons kv t ih =>
      by_cases hk : kv.1 = s'
      · simp [alookup, hk]
      · simp [alookup, hk, ih]

/-- Appending a section absent from the table makes it found. -/
theorem alookup_append_self {α : Type} {c : List (PyStr × α)} {s : PyStr}
    (x : α) (h : alookup c s = none) : alookup (c ++ [(s, x)]) s = some x := by
  induction c with
  | nil => simp [alookup]
  | cons kv t ih =>
      by_cases hk : kv.1 = s
      · simp [alookup, hk] at h
      · simp [alookup, hk] at h ⊢
        exact ih h

/-- `mapSec` leaves other section names unchanged. -/
theorem mapSec_lookup_ne {c : IniConfig} {s s' : PyStr}
    (f : IniSection → IniSection) (h : s' ≠ s) :
    alookup (mapSec c s f) s' = alookup c s' := by
  induction c with
  | nil => rfl
  | cons kv t ih =>
      obtain ⟨n, sec⟩ := kv
      by_cases hn : n = s
      · subst hn
        simp [mapSec, alookup, Ne.symm h]
      · by_cases hn' : n = s'
        · simp [mapSec, alookup, hn, hn', h]
        · simp [mapSec, alookup, hn, hn', ih]

/-- `mapSec` applies `f` to the section it names. -/
theorem mapSec_lookup_self {c : IniConfig} {s : PyStr} {sec : IniSection}
    (f : IniSection → IniSection) (h : alookup c s = some sec) :
    alookup (mapSec c s f) s = some (f sec) := by
  induction c with
  | nil => simp [alookup] at h
  | cons kv t ih =>
      obtain ⟨n, sec'⟩ := kv
      by_cases hn : n = s
      · subst hn
        simp [alookup] at h
        simp [mapSec, alookup, h]
      · simp [alookup, hn] at h
        simp [mapSec, alookup, hn, ih h]

/-- Setting an option makes it found with that value. -/
theorem setKV_lookup_self (sec : IniSection) (k v : PyStr) :
    alookup (setKV sec k v) k = some v := by
  induction sec with
  | nil => simp [setKV, alookup]
  | cons kv t ih =>
      by_cases hk : kv.1 = k
      · simp [setKV, hk, alookup]
      · simp [setKV, hk, alookup, ih]

/-- Setting an option leaves other option names unchanged. -/
theorem setKV_lookup_ne {k k' : PyStr} (sec : IniSection) (v : PyStr)
    (h : k' ≠ k) : alookup (setKV sec k' v) k = alookup sec k := by
  induction sec with
  | nil => simp [setKV, alookup, h]
  | cons kv t ih =>
      by_cases hk : kv.1 = k'
      · simp [setKV, hk, alookup, h]
      · by_cases hk2 : kv.1 = k
        · simp [setKV, hk, alookup, hk2, Ne.symm h]
        · simp [setKV, hk, alookup, hk2, ih]

/-- The batch-update fold leaves every option name outside the (lowercased)
update set unchanged. -/
theorem foldSet_lookup_notMem {m : List (PyStr × IniValue)} {k : PyStr}
    (sec : IniSection) (h : k ∉ m.map (fun kv => pyLower kv.1)) :
    alookup
      (m.foldl (fun acc kv => setKV acc (pyLower kv.1) (convertToIniString kv.2)) sec)
      k = alookup sec k := by
  induction m generalizing sec with
  | nil => rfl
  | cons kv m ih =>
      simp only [List.map_cons, List.mem_cons] at h
      push_neg at h
      rw [List.foldl_cons, ih _ h.2, setKV_lookup_ne _ _ (fun hh => h.1 hh.symm)]

/-- With pairwise-distinct lowercased keys, the batch-update fold stores
every listed pair under its lowercased key. -/
theorem foldSet_lookup_mem {m : List (PyStr × IniValue)} {k : PyStr}
    {v : IniValue} (sec : IniSection)
    (hnd : (m.map (fun kv => pyLower kv.1)).Nodup) (hm : (k, v) ∈ m) :
    alookup
      (m.foldl (fun acc kv => setKV acc (pyLower kv.1) (convertToIniString kv.2)) sec)
      (pyLower k) = some (convertToIniString v) := by
  induction m generalizing sec with
  | nil => simp at hm
  | cons kv m ih =>
      simp only [List.map_cons, List.nodup_cons] at hnd
      rcases List.mem_cons.mp hm with h1 | h1
      · subst h1
        rw [List.foldl_cons, foldSet_lookup_notMem _ hnd.1, setKV_lookup_self]
      · rw [List.foldl_cons]
        exact ih _ hnd.2 h1

/-- `iniLines` distributes over appending a section. -/
theorem iniLines_append (c : IniConfig) (s : PyStr) (sec : IniSection) :
    iniLines (c ++ [(s, sec)]) = iniLines c ++ secLines s sec := by
  simp [iniLines]

/-- C5: for a section name absent from the table, `read_section` returns an
empty mapping without raising and leaves the store unchanged; with
`create_if_not_exists=True` it returns the empty mapping and materializes the
empty section in memory only (disk untouched), and a subsequent `save()`
writes the `[section]` header line for it. -/
theorem readSection_missing_safe :
    ∀ (st : IniStore) (s : PyStr), alookup st.conf s = none →
      stReadSection st s false = ([], st) ∧
      stReadSection st s true = ([], { st with conf := st.conf ++ [(s, [])] }) ∧
      (stReadSection st s true).2.disk = st.disk ∧
      ('[' :: s ++ [']']) ∈ ((stSave (stReadSection st s true).2).disk.getD []) := by
  intro st s h
  have h2 : stReadSection st s true = ([], { st with conf := st.conf ++ [(s, [])] }) := by
    simp [stReadSection, readSection, h, addSec]
  refine ⟨?_, h2, ?_, ?_⟩
  · simp [stReadSection, readSection, h]
  · rw [h2]
  · rw [h2]
    show ('[' :: s ++ [']']) ∈ iniLines (st.conf ++ [(s, [])])
    rw [iniLines_append]
    exact List.mem_append_right _ (List.mem_cons_self _ _)

/-- C8: Record Store reads and updates touch only the in-memory table — the
disk image changes only through an explicit `save()`, which writes the
serialized table — and `update_section_keys` modifies exactly the lowercased
field names it is given: lookups of every other section, and of every field
of the target section outside the update set, are unchanged, while each
listed pair is stored serialized under its lowercased key. -/
theorem recordStore_frame :
    (∀ st s k v, (stUpdateKey st s k v).disk = st.disk) ∧
    (∀ st s m, (stUpdateSectionKeys st s m).disk = st.disk) ∧
    (∀ st s b, (stReadSection st s b).2.disk = st.disk) ∧
    (∀ st, (stSave st).disk = some (iniLines st.conf)) ∧
    (∀ c s m s', s' ≠ s →
      alookup (updateSectionKeys c s m) s' = alookup c s') ∧
    (∀ c s m k, k ∉ m.map (fun kv => pyLower kv.1) →
      lookup2 (updateSectionKeys c s m) s k = lookup2 c s k) ∧
    (∀ c s m k v, (m.map (fun kv => pyLower kv.1)).Nodup → (k, v) ∈ m →
      lookup2 (updateSectionKeys c s m) s (pyLower k) =
        some (convertToIniString v)) := by
  refine ⟨fun _ _ _ _ => rfl, fun _ _ _ => rfl, fun _ _ _ => rfl, fun _ => rfl,
    ?_, ?_, ?_⟩
  · intro c s m s' h
    rw [updateSectionKeys, mapSec_lookup_ne _ h]
    by_cases hs : hasSec c s
    · simp [hs]
    · simp [hs, addSec, alookup_append_ne _ _ h]
  · intro c s m k h
    rw [updateSectionKeys, lookup2, lookup2]
    cases hl : alookup c s with
    | some sec =>
        have hs : hasSec c s = true := by simp [hasSec, hl]
        rw [if_pos hs, mapSec_lookup_self _ hl]
        simp [foldSet_lookup_notMem _ h, hl]
    | none =>
        have hs : hasSec c s = false := by simp [hasSec, hl]
        rw [if_neg (by simp [hs]), addSec,
          mapSec_lookup_self _ (alookup_append_self _ hl)]
        simp [foldSet_lookup_notMem _ h, alookup]
  · intro c s m k v hnd hm
    rw [updateSectionKeys, lookup2]
    cases hl : alookup c s with
    | some sec =>
        have hs : hasSec c s = true := by simp [hasSec, hl]
        rw [if_pos hs, mapSec_lookup_self _ hl]
        simp [foldSet_lookup_mem _ hnd hm]
    | none =>
        have hs : hasSec c s = false := by simp [hasSec, hl]
        rw [if_neg (by simp [hs]), addSec,
          mapSec_lookup_self _ (alookup_append_self _ hl)]
        simp [foldSet_lookup_mem _ hnd hm]

/-! ### Lowercased option names (C10) -/

/-- `Char.ofNat` of a valid codepoint converts back. -/
theorem toNat_ofNatAux (n : Nat) (h : n.isValidChar) :
    (Char.ofNatAux n h).toNat = n := by
  simp [Char.ofNatAux, Char.toNat, UInt32.toNat]

/-- `Char.ofNat` of a valid codepoint converts back. -/
theorem toNat_ofNat_valid {n : Nat} (h : n.isValidChar) :
    (Char.ofNat n).toNat = n := by
  rw [Char.ofNat, dif_pos h, toNat_ofNatAux]

/-- Lowering an uppercase ASCII letter adds 32 to the codepoint. -/
theorem lowCh_toNat_upper {c : Char} (h : 65 ≤ c.toNat ∧ c.toNat ≤ 90) :
    (lowCh c).toNat = c.toNat + 32 := by
  rw [lowCh, if_pos h]
  exact toNat_ofNat_valid (Or.inl (by omega))

/-- ASCII case folding is idempotent. -/
theorem lowCh_idem (c : Char) : lowCh (lowCh c) = lowCh c := by
  by_cases h : 65 ≤ c.toNat ∧ c.toNat ≤ 90
  · have h2 := lowCh_toNat_upper h
    have h3 : ¬(65 ≤ (lowCh c).toNat ∧ (lowCh c).toNat ≤ 90) := by
      rw [h2]; omega
    rw [lowCh, if_neg h3]
  · have h0 : lowCh c = c := by rw [lowCh, if_neg h]
    simp [h0]

/-- `str.lower` is idempotent. -/
theorem pyLower_idem (s : PyStr) : pyLower (pyLower s) = pyLower s := by
  induction s with
  | nil => rfl
  | cons c t ih => simp [pyLower] at ih ⊢; simp [lowCh_idem, ih]

/-- `setKV` with a lowercase-fixed key preserves the lowercase-key
invariant. -/
theorem secKeysLower_setKV {sec : IniSection} {k v : PyStr}
    (hsec : SecKeysLower sec) (hk : pyLower k = k) :
    SecKeysLower (setKV sec k v) := by
  induction sec with
  | nil =>
      intro kv hm
      simp [setKV] at hm
      simp [hm, hk]
  | cons kv0 t ih =>
      have h0 : pyLower kv0.1 = kv0.1 := hsec kv0 (List.mem_cons_self _ _)
      have ht : SecKeysLower t := fun kv hm => hsec kv (List.mem_cons_of_mem _ hm)
      by_cases he : kv0.1 = k
      · intro kv hm
        simp [setKV, he] at hm
        rcases hm with hm | hm
        · simp [hm, hk]
        · exact ht kv hm
      · intro kv hm
        simp [setKV, he] at hm
        rcases hm with hm | hm
        · simp [hm, h0]
        · exact ih ht kv hm

/-- A found option name is a member of the section. -/
theorem alookup_isSome_mem {α : Type} {sec : List (PyStr × α)} {k : PyStr}
    (h : (alookup sec k).isSome) : ∃ v, (k, v) ∈ sec := by
  induction sec with
  | nil => simp [alookup] at h
  | cons kv t ih =>
      by_cases he : kv.1 = k
      · exact ⟨kv.2, by simp [← he]⟩
      · simp [alookup, he] at h
        obtain ⟨v, hv⟩ := ih h
        exact ⟨v, List.mem_cons_of_mem _ hv⟩

/-- A successful lookup exhibits a member with that exact key and value. -/
theorem alookup_mem {α : Type} {c : List (PyStr × α)} {k : PyStr} {x : α}
    (h : alookup c k = some x) : (k, x) ∈ c := by
  induction c with
  | nil => simp [alookup] at h
  | cons kv t ih =>
      by_cases he : kv.1 = k
      · rw [alookup, if_pos he] at h
        cases h
        have hkv : (k, kv.2) = kv := by rw [← he]
        rw [hkv]
        exact List.mem_cons_self _ _
      · rw [alookup, if_neg he] at h
        exact List.mem_cons_of_mem _ (ih h)

/-- `mapSec` with an invariant-preserving function preserves the
lowercase-key invariant. -/
theorem confKeysLower_mapSec {c : IniConfig} {s : PyStr}
    {f : IniSection → IniSection}
    (hf : ∀ sec, SecKeysLower sec → SecKeysLower (f sec))
    (hc : ConfKeysLower c) : ConfKeysLower (mapSec c s f) := by
  induction c with
  | nil => intro ns hm; simp [mapSec] at hm
  | cons kv t ih =>
      have hh : SecKeysLower kv.2 := hc kv (List.mem_cons_self _ _)
      have ht : ConfKeysLower t := fun ns hm => hc ns (List.mem_cons_of_mem _ hm)
      by_cases he : kv.1 = s
      · intro ns hm
        rw [mapSec] at hm
        simp [he] at hm
        rcases hm with hm | hm
        · rw [hm]; exact hf _ hh
        · exact ht ns hm
      · intro ns hm
        rw [mapSec] at hm
        simp [he] at hm
        rcases hm with hm | hm
        · rw [hm]; exact hh
        · exact ih ht ns hm

/-- Appending a section with lowercase keys preserves the invariant. -/
theorem confKeysLower_append {c : IniConfig} {s : PyStr} {x : IniSection}
    (hc : ConfKeysLower c) (hx : SecKeysLower x) :
    ConfKeysLower (c ++ [(s, x)]) := by
  intro ns hm
  rcases List.mem_append.mp hm with hm | hm
  · exact hc ns hm
  · simp at hm
    rw [hm]
    exact hx

/-- C10: `update_key` stores the field under the lowercased key
(`optionxform`), the all-keys-lowercase invariant of the in-memory table is
preserved, and under that invariant reading back the exact key just written
succeeds precisely when the key was already lowercase. -/
theorem updateKey_lowercase_keys :
    (∀ c s k v, lookup2 (updateKey c s k v) s (pyLower k) =
      some (convertToIniString v)) ∧
    (∀ c s k v, ConfKeysLower c → ConfKeysLower (updateKey c s k v)) ∧
    (∀ c s k v, ConfKeysLower c →
      ((lookup2 (updateKey c s k v) s k).isSome ↔ pyLower k = k)) := by
  have hstore : ∀ c s k v, ∃ sec, alookup (updateKey c s k v) s = some sec ∧
      (∀ sec0, alookup c s = some sec0 → sec = setKV sec0 (pyLower k) (convertToIniString v)) ∧
      (alookup c s = none → sec = [(pyLower k, convertToIniString v)]) := by
    intro c s k v
    cases hl : alookup c s with
    | some sec0 =>
        have hs : hasSec c s = true := by simp [hasSec, hl]
        refine ⟨setKV sec0 (pyLower k) (convertToIniString v), ?_, ?_, ?_⟩
        · rw [updateKey, if_pos hs, mapSec_lookup_self _ hl]
        · intro sec1 h1
          cases h1
          rfl
        · intro h1
          cases h1
    | none =>
        have hs : hasSec c s = false := by simp [hasSec, hl]
        refine ⟨[(pyLower k, convertToIniString v)], ?_, ?_, ?_⟩
        · rw [updateKey, if_neg (by simp [hs]), addSec,
            mapSec_lookup_self _ (alookup_append_self _ hl)]
          rfl
        · intro sec1 h1
          cases h1
        · intro _
          rfl
  have hfind : ∀ c s k v, lookup2 (updateKey c s k v) s (pyLower k) =
      some (convertToIniString v) := by
    intro c s k v
    obtain ⟨sec, hsec, hsome, hnone⟩ := hstore c s k v
    rw [lookup2, hsec]
    cases hl : alookup c s with
    | some sec0 => rw [hsome sec0 hl]; simp [setKV_lookup_self]
    | none => rw [hnone hl]; simp [alookup]
  have hlowsec : ∀ c s k v, ConfKeysLower c →
      ∀ sec, alookup (updateKey c s k v) s = some sec → SecKeysLower sec := by
    intro c s k v hc sec hsec
    obtain ⟨sec1, hsec1, hsome, hnone⟩ := hstore c s k v
    rw [hsec1] at hsec
    cases hsec
    cases hl : alookup c s with
    | some sec0 =>
        rw [hsome sec0 hl]
        have hs0 : SecKeysLower sec0 := hc (s, sec0) (alookup_mem hl)
        exact secKeysLower_setKV hs0 (pyLower_idem k)
    | none =>
        rw [hnone hl]
        intro kv hm
        simp at hm
        simp [hm, pyLower_idem]
  refine ⟨hfind, ?_, ?_⟩
  · intro c s k v hc
    rw [updateKey]
    have hf : ∀ sec, SecKeysLower sec →
        SecKeysLower (setKV sec (pyLower k) (convertToIniString v)) :=
      fun _ hs => secKeysLower_setKV hs (pyLower_idem k)
    by_cases hs : hasSec c s
    · rw [if_pos hs]
      exact confKeysLower_mapSec hf hc
    · rw [if_neg hs]
      exact confKeysLower_mapSec hf
        (confKeysLower_append hc (fun kv hm => by simp at hm))
  · intro c s k v hc
    constructor
    · intro hsome
      rw [lookup2] at hsome
      cases hsec : alookup (updateKey c s k v) s with
      | none => rw [hsec] at hsome; simp at hsome
      | some sec =>
          rw [hsec] at hsome
          simp at hsome
          obtain ⟨v0, hv0⟩ := alookup_isSome_mem hsome
          exact hlowsec c s k v hc sec hsec (k, v0) hv0
    · intro hk
      have h1 := hfind c s k v
      rw [hk] at h1
      simp [h1]

/-! ### Character classes and parser failure lemmas (C2, C3) -/

/-- `Char.isDigit` in terms of the codepoint. -/
theorem isDigit_iff_toNat {c : Char} :
    c.isDigit = true ↔ (48 ≤ c.toNat ∧ c.toNat ≤ 57) := by
  simp [Char.isDigit, Char.le_def, Char.toNat, UInt32.le_def, BitVec.le_def,
    UInt32.toNat]

/-- The codepoint of a whitespace character. -/
theorem toNat_of_ws {c : Char} (h : isWs c = true) :
    c.toNat = 32 ∨ c.toNat = 9 ∨ c.toNat = 10 ∨ c.toNat = 13 ∨
      c.toNat = 11 ∨ c.toNat = 12 := by
  have hm : c ∈ pyWsChars := by simpa [isWs] using h
  fin_cases hm <;> simp [Char.toNat]

/-- Digits are not whitespace. -/
theorem not_ws_of_digit {c : Char} (h : c.isDigit = true) : isWs c = false := by
  cases hw : isWs c with
  | false => rfl
  | true =>
      exfalso
      rcases isDigit_iff_toNat.mp h with ⟨h1, h2⟩
      rcases toNat_of_ws hw with h3 | h3 | h3 | h3 | h3 | h3 <;> omega

/-- ASCII letters are not whitespace. -/
theorem not_ws_of_alpha {c : Char} (h : isAlphaAscii c = true) :
    isWs c = false := by
  cases hw : isWs c with
  | false => rfl
  | true =>
      exfalso
      have h1 := of_decide_eq_true h
      rcases toNat_of_ws hw with h3 | h3 | h3 | h3 | h3 | h3 <;> omega

/-- A character whose codepoint differs cannot be that literal. -/
theorem ne_of_toNat_ne {c d : Char} (h : c.toNat ≠ d.toNat) : c ≠ d :=
  fun he => h (he ▸ rfl)

/-- Case folding fixes characters outside the uppercase range. -/
theorem lowCh_fixed {c : Char} (h : ¬(65 ≤ c.toNat ∧ c.toNat ≤ 90)) :
    lowCh c = c := by
  rw [lowCh, if_neg h]

/-- Case folding preserves ASCII letterhood. -/
theorem lowCh_alpha (c : Char) : isAlphaAscii (lowCh c) = isAlphaAscii c := by
  by_cases h : 65 ≤ c.toNat ∧ c.toNat ≤ 90
  · have h2 := lowCh_toNat_upper h
    simp only [isAlphaAscii, decide_eq_decide, h2]
    omega
  · rw [lowCh_fixed h]

/-- ASCII letters are not digits. -/
theorem not_digit_of_alpha {c : Char} (h : isAlphaAscii c = true) :
    c.isDigit = false := by
  cases hd : c.isDigit with
  | false => rfl
  | true =>
      exfalso
      have h1 := of_decide_eq_true h
      rcases isDigit_iff_toNat.mp hd with ⟨h2, h3⟩
      rcases h1 with ⟨h4, h5⟩ | ⟨h4, h5⟩ <;> omega

/-- ASCII letters are none of the sign/underscore/dot punctuation. -/
theorem alpha_not_punct {c : Char} (h : isAlphaAscii c = true) :
    c ≠ '+' ∧ c ≠ '-' ∧ c ≠ '_' ∧ c ≠ '.' := by
  have h1 := of_decide_eq_true h
  have e1 : ('+').toNat = 43 := rfl
  have e2 : ('-').toNat = 45 := rfl
  have e3 : ('_').toNat = 95 := rfl
  have e4 : ('.').toNat = 46 := rfl
  refine ⟨ne_of_toNat_ne ?_, ne_of_toNat_ne ?_, ne_of_toNat_ne ?_,
    ne_of_toNat_ne ?_⟩
  · rw [e1]; rcases h1 with ⟨h4, h5⟩ | ⟨h4, h5⟩ <;> omega
  · rw [e2]; rcases h1 with ⟨h4, h5⟩ | ⟨h4, h5⟩ <;> omega
  · rw [e3]; rcases h1 with ⟨h4, h5⟩ | ⟨h4, h5⟩ <;> omega
  · rw [e4]; rcases h1 with ⟨h4, h5⟩ | ⟨h4, h5⟩ <;> omega

/-- `dropWhile` is the identity when no element satisfies the predicate. -/
theorem dropWhile_eq_self_of {p : Char → Bool} {l : PyStr}
    (h : ∀ c ∈ l, p c = false) : l.dropWhile p = l := by
  cases l with
  | nil => rfl
  | cons a t => simp [List.dropWhile_cons, h a (List.mem_cons_self _ _)]

/-- `str.strip()` is the identity on strings without whitespace. -/
theorem pyStrip_no_ws {s : PyStr} (h : ∀ c ∈ s, isWs c = false) :
    pyStrip s = s := by
  rw [pyStrip, stripL, dropWhile_eq_self_of h, stripR,
    dropWhile_eq_self_of (fun c hc => h c (List.mem_reverse.mp hc)),
    List.reverse_reverse]

/-- `splitSign` does nothing on a string not starting with a sign. -/
theorem splitSign_not_sign (c : Char) (cs : PyStr) (h1 : c ≠ '+')
    (h2 : c ≠ '-') : splitSign (c :: cs) = (false, c :: cs) := by
  simp [splitSign, h1, h2]

/-- The underscore scanner accepts digit runs. -/
theorem udGo_append_digits {ds : PyStr} (h : ∀ c ∈ ds, c.isDigit = true) :
    ∀ (b : Bool) (l : PyStr), udGo b (ds ++ l) = udGo (b || !ds.isEmpty) l := by
  induction ds with
  | nil => intro b l; simp
  | cons c t ih =>
      intro b l
      have hc := h c (List.mem_cons_self _ _)
      have ht : ∀ c ∈ t, c.isDigit = true :=
        fun c hm => h c (List.mem_cons_of_mem _ hm)
      rw [List.cons_append,
        show udGo b (c :: (t ++ l)) = udGo true (t ++ l) by simp [udGo, hc],
        ih ht true l]
      simp

/-- A nonempty all-digit string is a valid underscore run. -/
theorem validUD_digits {ds : PyStr} (hne : ds ≠ [])
    (h : ∀ c ∈ ds, c.isDigit = true) : validUD ds = true := by
  rw [validUD, show ds = ds ++ [] by simp, udGo_append_digits h]
  simp [udGo, hne]

/-- The underscore scanner rejects a leading non-digit non-underscore. -/
theorem udGo_false_head {c : Char} {cs : PyStr} (h1 : c.isDigit = false)
    (h2 : c ≠ '_') (b : Bool) : udGo b (c :: cs) = false := by
  simp [udGo, h1, h2]

/-- `dropUS` is the identity on digit strings. -/
theorem dropUS_digits {ds : PyStr} (h : ∀ c ∈ ds, c.isDigit = true) :
    dropUS ds = ds := by
  rw [dropUS, List.filter_eq_self]
  intro c hc
  have := h c hc
  have hne : c ≠ '_' := by
    intro he
    rw [he] at this
    exact absurd this (by decide)
  simp [hne]

/-- `splitFirst` finds nothing when no character matches. -/
theorem splitFirst_none_of {p : Char → Bool} {l : PyStr}
    (h : ∀ c ∈ l, p c = false) : splitFirst p l = none := by
  induction l with
  | nil => rfl
  | cons c t ih =>
      rw [splitFirst, if_neg (by simp [h c (List.mem_cons_self _ _)]),
        ih (fun c hm => h c (List.mem_cons_of_mem _ hm))]

/-- `splitFirst` splits at an explicitly placed first match. -/
theorem splitFirst_append {p : Char → Bool} {a : PyStr} {x : Char}
    (b : PyStr) (ha : ∀ c ∈ a, p c = false) (hx : p x = true) :
    splitFirst p (a ++ x :: b) = some (a, b) := by
  induction a with
  | nil => simp [splitFirst, hx]
  | cons c t ih =>
      rw [List.cons_append, splitFirst,
        if_neg (by simp [ha c (List.mem_cons_self _ _)]),
        ih (fun c hm => ha c (List.mem_cons_of_mem _ hm))]

/-- Both parts produced by `splitFirst` draw their characters from the
input. -/
theorem splitFirst_mem {p : Char → Bool} {l : PyStr} {q : PyStr × PyStr}
    (h : splitFirst p l = some q) :
    (∀ c ∈ q.1, c ∈ l) ∧ (∀ c ∈ q.2, c ∈ l) := by
  induction l generalizing q with
  | nil => simp [splitFirst] at h
  | cons c t ih =>
      rw [splitFirst] at h
      by_cases hc : p c
      · rw [if_pos hc] at h
        cases h
        exact ⟨fun c hm => by simp at hm,
          fun d hm => List.mem_cons_of_mem _ hm⟩
      · rw [if_neg hc] at h
        cases hq : splitFirst p t with
        | none => rw [hq] at h; cases h
        | some q0 =>
            rw [hq] at h
            cases h
            obtain ⟨h1, h2⟩ := ih hq
            constructor
            · intro d hm
              rcases List.mem_cons.mp hm with hm | hm
              · rw [hm]; exact List.mem_cons_self _ _
              · exact List.mem_cons_of_mem _ (h1 d hm)
            · intro d hm
              exact List.mem_cons_of_mem _ (h2 d hm)

/-- On a nonempty all-ASCII-letter string that is not a float special,
both `int()` and `float()` fail. -/
theorem alpha_no_parse {s w : PyStr} (hw : pyStrip s = w) (hne : w ≠ [])
    (halpha : ∀ c ∈ w, isAlphaAscii c = true)
    (hspec : floatSpecials.contains (pyLower w) = false) :
    pyIntParse s = none ∧ pyFloatParse s = none := by
  obtain ⟨c, t, rfl⟩ : ∃ c t, w = c :: t := by
    cases w with
    | nil => exact absurd rfl hne
    | cons c t => exact ⟨c, t, rfl⟩
  have hc := halpha c (List.mem_cons_self _ _)
  obtain ⟨hplus, hminus, hus, hdot⟩ := alpha_not_punct hc
  have hsign := splitSign_not_sign c t hplus hminus
  have hmant_false : ∀ m : PyStr, (∀ d ∈ m, isAlphaAscii d = true) →
      mantValid m = false := by
    intro m hm
    rw [mantValid, splitFirst_none_of (fun d hd => by
      simp [(alpha_not_punct (hm d hd)).2.2.2])]
    cases m with
    | nil => rfl
    | cons d m0 =>
        exact udGo_false_head (not_digit_of_alpha (hm d (List.mem_cons_self _ _)))
          (alpha_not_punct (hm d (List.mem_cons_self _ _))).2.2.1 _
  have hv : validUD (c :: t) = false := by
    rw [validUD]
    exact udGo_false_head (not_digit_of_alpha hc) hus _
  constructor
  · rw [pyIntParse]
    simp only [hw, hsign]
    simp [hv]
  · have hvalid : pyFloatValid s = false := by
      rw [pyFloatValid]
      simp only [hw, hsign]
      simp only [hspec, Bool.false_eq_true, if_false]
      cases hsp : splitFirst (fun d => d = 'e' || d = 'E') (c :: t) with
      | none => simp [hmant_false _ halpha]
      | some q =>
          have hq1 := (splitFirst_mem hsp).1
          simp [hmant_false q.1 (fun d hd => halpha d (hq1 d hd))]
    simp [pyFloatParse, hvalid]

/-- If the lowercased stripped input spells a nonempty all-letter keyword
that is not a float special, both parses fail. -/
theorem keyword_no_parse {s K : PyStr} (hK : pyLower (pyStrip s) = K)
    (halphaK : ∀ d ∈ K, isAlphaAscii d = true) (hKne : K ≠ [])
    (hspecK : floatSpecials.contains K = false) :
    pyIntParse s = none ∧ pyFloatParse s = none := by
  apply alpha_no_parse rfl
  · intro he
    rw [pyLower, he] at hK
    exact hKne hK.symm
  · intro c hcm
    have hmem : lowCh c ∈ K := by
      rw [← hK, pyLower]
      exact List.mem_map_of_mem _ hcm
    rw [← lowCh_alpha]
    exact halphaK _ hmem
  · rw [hK]
    exact hspecK

/-- C3: `_convert_value` coerces in the fixed precedence order — a
successful `int()` parse wins; otherwise a successful `float()` parse;
otherwise the case-insensitive keywords `true`/`yes`/`on` give `True` and
`false`/`no`/`off` give `False` unconditionally (keyword strings can never
parse as numbers); otherwise the stripped string is returned. -/
theorem convertValue_precedence :
    (∀ s n, pyIntParse s = some n → convertValue s = .int n) ∧
    (∀ s f, pyIntParse s = none → pyFloatParse s = some f →
      convertValue s = .float f) ∧
    (∀ s, pyLower (pyStrip s) ∈ trueKws → convertValue s = .bool true) ∧
    (∀ s, pyLower (pyStrip s) ∈ falseKws → convertValue s = .bool false) ∧
    (∀ s, pyIntParse s = none → pyFloatParse s = none →
      pyLower (pyStrip s) ∉ trueKws → pyLower (pyStrip s) ∉ falseKws →
      convertValue s = .str (pyStrip s)) := by
  refine ⟨?_, ?_, ?_, ?_, ?_⟩
  · intro s n h
    simp [convertValue, h]
  · intro s f h1 h2
    simp [convertValue, h1, h2]
  · intro s hmem
    simp only [trueKws, List.mem_cons, List.not_mem_nil, or_false] at hmem
    rcases hmem with h | h | h <;>
    · obtain ⟨hi, hf⟩ := keyword_no_parse h (by decide) (by decide) (by decide)
      simp [convertValue, hi, hf, h, trueKws]
  · intro s hmem
    simp only [falseKws, List.mem_cons, List.not_mem_nil, or_false] at hmem
    rcases hmem with h | h | h <;>
    · obtain ⟨hi, hf⟩ := keyword_no_parse h (by decide) (by decide) (by decide)
      simp [convertValue, hi, hf, h, trueKws, falseKws]
  · intro s h1 h2 h3 h4
    simp [convertValue, h1, h2, h3, h4]

/-- Witness for C3 at concrete inputs, one per branch. -/
theorem convertValue_precedence_witness :
    convertValue ("42".toList) = .int 42 ∧
    convertValue ("2.5".toList) = .float ("2.5".toList) ∧
    convertValue (" YES ".toList) = .bool true ∧
    convertValue ("Off".toList) = .bool false ∧
    convertValue ("hello".toList) = .str ("hello".toList) :=
  ⟨convertValue_precedence.1 _ 42 (by decide),
   convertValue_precedence.2.1 _ _ (by decide) (by decide),
   convertValue_precedence.2.2.1 _ (by decide),
   convertValue_precedence.2.2.2.1 _ (by decide),
   convertValue_precedence.2.2.2.2 _ (by decide) (by decide) (by decide)
     (by decide)⟩

/-! ### Integer and float round-trip lemmas (C2) -/

/-- Digits are not numeric punctuation or an exponent marker. -/
theorem digit_not_special {c : Char} (h : c.isDigit = true) :
    c ≠ '+' ∧ c ≠ '-' ∧ c ≠ '_' ∧ c ≠ '.' ∧ c ≠ 'e' ∧ c ≠ 'E' := by
  rcases isDigit_iff_toNat.mp h with ⟨h1, h2⟩
  refine ⟨ne_of_toNat_ne ?_, ne_of_toNat_ne ?_, ne_of_toNat_ne ?_,
    ne_of_toNat_ne ?_, ne_of_toNat_ne ?_, ne_of_toNat_ne ?_⟩
  · rw [show ('+').toNat = 43 from rfl]; omega
  · rw [show ('-').toNat = 45 from rfl]; omega
  · rw [show ('_').toNat = 95 from rfl]; omega
  · rw [show ('.').toNat = 46 from rfl]; omega
  · rw [show ('e').toNat = 101 from rfl]; omega
  · rw [show ('E').toNat = 69 from rfl]; omega

/-- Case folding fixes digits. -/
theorem lowCh_digit {c : Char} (h : c.isDigit = true) : lowCh c = c := by
  rcases isDigit_iff_toNat.mp h with ⟨h1, h2⟩
  exact lowCh_fixed (by omega)

/-- `contains` is false when the element differs from every member. -/
theorem contains_false_of_ne {l : List PyStr} {x : PyStr}
    (h : ∀ y ∈ l, x ≠ y) : l.contains x = false := by
  cases hc : l.contains x with
  | false => rfl
  | true => exact absurd rfl (h x (by simpa using hc))

/-- Every digit of `natToDigitsRevGo` is a decimal digit character. -/
theorem natToDigitsRevGo_digits :
    ∀ (fuel n : Nat), ∀ c ∈ natToDigitsRevGo fuel n, c.isDigit = true := by
  intro fuel
  induction fuel with
  | zero => intro n c hc; simp [natToDigitsRevGo] at hc
  | succ f ih =>
      intro n c hc
      rw [natToDigitsRevGo] at hc
      by_cases h : n < 10
      · rw [if_pos h] at hc
        simp at hc
        rw [hc, isDigit_iff_toNat, toNat_ofNat_valid (Or.inl (by omega))]
        omega
      · rw [if_neg h] at hc
        rcases List.mem_cons.mp hc with hc | hc
        · have hm : n % 10 < 10 := Nat.mod_lt _ (by omega)
          rw [hc, isDigit_iff_toNat, toNat_ofNat_valid (Or.inl (by omega))]
          omega
        · exact ih _ c hc

/-- `natToDigitsRevGo` with positive fuel is nonempty. -/
theorem natToDigitsRevGo_ne_nil (f n : Nat) : natToDigitsRevGo (f + 1) n ≠ [] := by
  rw [natToDigitsRevGo]
  by_cases h : n < 10
  · simp [h]
  · simp [h]

/-- Appending one digit multiplies the value by ten and adds it. -/
theorem digitsToNat_append_one (l : PyStr) (c : Char) :
    digitsToNat (l ++ [c]) = 10 * digitsToNat l + digitVal c := by
  simp [digitsToNat, List.foldl_append]

/-- The digit string of `n` evaluates back to `n`. -/
theorem digitsToNat_go (fuel n : Nat) (h : n < fuel) :
    digitsToNat ((natToDigitsRevGo fuel n).reverse) = n := by
  induction fuel generalizing n with
  | zero => omega
  | succ f ih =>
      rw [natToDigitsRevGo]
      by_cases h10 : n < 10
      · rw [if_pos h10]
        simp [digitsToNat, digitVal, toNat_ofNat_valid (Or.inl (show 48 + n < 55296 by omega))]
      · rw [if_neg h10, List.reverse_cons, digitsToNat_append_one,
          ih (n / 10) (by omega), digitVal,
          toNat_ofNat_valid (Or.inl (show 48 + n % 10 < 55296 by omega))]
        omega

/-- `str(n)` consists of digit characters. -/
theorem natToStr_digits (n : Nat) : ∀ c ∈ natToStr n, c.isDigit = true :=
  fun c hc => natToDigitsRevGo_digits _ _ c (List.mem_reverse.mp hc)

/-- `str(n)` is nonempty. -/
theorem natToStr_ne_nil (n : Nat) : natToStr n ≠ [] := by
  rw [natToStr]
  intro h
  exact natToDigitsRevGo_ne_nil n n (by simpa using h)

/-- `str(n)` evaluates back to `n`. -/
theorem digitsToNat_natToStr (n : Nat) : digitsToNat (natToStr n) = n :=
  digitsToNat_go _ _ (Nat.lt_succ_self n)

/-- `int()` on a nonempty digit string parses its value. -/
theorem pyIntParse_digits {s : PyStr} (hne : s ≠ [])
    (h : ∀ c ∈ s, c.isDigit = true) :
    pyIntParse s = some ((digitsToNat s : Nat) : Int) := by
  obtain ⟨c, t, rfl⟩ : ∃ c t, s = c :: t := by
    cases s with
    | nil => exact absurd rfl hne
    | cons c t => exact ⟨c, t, rfl⟩
  have hc := h c (List.mem_cons_self _ _)
  obtain ⟨hplus, hminus, hus, _, _, _⟩ := digit_not_special hc
  have hstrip : pyStrip (c :: t) = c :: t :=
    pyStrip_no_ws (fun d hd => not_ws_of_digit (h d hd))
  rw [pyIntParse]
  simp only [hstrip, splitSign_not_sign c t hplus hminus]
  simp [validUD_digits (List.cons_ne_nil c t) h, dropUS_digits h]

/-- `int(str(z)) == z`: Python integers round-trip through their default
string form. -/
theorem pyIntParse_intToStr (z : Int) : pyIntParse (intToStr z) = some z := by
  cases z with
  | ofNat n =>
      rw [intToStr, pyIntParse_digits (natToStr_ne_nil n) (natToStr_digits n),
        digitsToNat_natToStr]
      rfl
  | negSucc m =>
      rw [intToStr]
      have hds := natToStr_digits (m + 1)
      have hne := natToStr_ne_nil (m + 1)
      have hstrip : pyStrip ('-' :: natToStr (m + 1)) = '-' :: natToStr (m + 1) := by
        apply pyStrip_no_ws
        intro d hd
        rcases List.mem_cons.mp hd with hd | hd
        · rw [hd]; decide
        · exact not_ws_of_digit (hds d hd)
      have hsign : splitSign ('-' :: natToStr (m + 1)) = (true, natToStr (m + 1)) := by
        simp [splitSign]
      rw [pyIntParse]
      simp only [hstrip, hsign]
      simp [validUD_digits hne hds, dropUS_digits hds, digitsToNat_natToStr,
        Int.negSucc_eq]

/-- `str.lower` fixes strings whose characters are all case-fold fixed. -/
theorem pyLower_fixed_of {s : PyStr} (h : ∀ c ∈ s, lowCh c = c) :
    pyLower s = s := by
  induction s with
  | nil => rfl
  | cons c t ih =>
      rw [pyLower, List.map_cons, h c (List.mem_cons_self _ _)]
      rw [pyLower] at ih
      rw [ih (fun d hd => h d (List.mem_cons_of_mem _ hd))]

/-- `dropUS` fixes strings without underscores. -/
theorem dropUS_fixed_of {s : PyStr} (h : ∀ c ∈ s, c ≠ '_') : dropUS s = s := by
  rw [dropUS, List.filter_eq_self]
  intro c hc
  simp [h c hc]

/-- A canonical float representation fails `int()` and parses under
`float()` to itself. -/
theorem canon_float_parse {r : PyStr} (h : IsCanonFloatRepr r) :
    pyIntParse r = none ∧ pyFloatParse r = some r := by
  rcases h with h | h | ⟨neg, ip, fp, ex, hip, hfp, hex, hpres, hr⟩
  · subst h; exact ⟨by decide, by decide⟩
  · subst h; exact ⟨by decide, by decide⟩
  obtain ⟨c0, ip', hip0⟩ : ∃ c0 ip', ip = c0 :: ip' := by
    cases hc : ip with
    | nil => exact absurd hc hip.1
    | cons c0 ip' => exact ⟨c0, ip', rfl⟩
  have hc0 : c0.isDigit = true :=
    hip.2 c0 (by rw [hip0]; exact List.mem_cons_self _ _)
  -- character classification of the core
  have hcd : ∀ c ∈ canonCore ip fp ex,
      c.isDigit = true ∨ c = '.' ∨ c = 'e' ∨ c = '+' ∨ c = '-' := by
    intro c hc
    rw [canonCore] at hc
    rcases List.mem_append.mp hc with hc | hc
    · rcases List.mem_append.mp hc with hc | hc
      · exact Or.inl (hip.2 c hc)
      · cases hf : fp with
        | none => rw [hf, fpPart] at hc; simp at hc
        | some f =>
            rw [hf, fpPart] at hc
            rcases List.mem_cons.mp hc with hc | hc
            · exact Or.inr (Or.inl hc)
            · exact Or.inl ((hfp f hf).2 c hc)
    · cases he : ex with
      | none => rw [he, exPart] at hc; simp at hc
      | some p =>
          rw [he, exPart] at hc
          rcases List.mem_cons.mp hc with hc | hc
          · exact Or.inr (Or.inr (Or.inl hc))
          · rcases List.mem_cons.mp hc with hc | hc
            · cases hp1 : p.1 with
              | true =>
                  rw [hp1] at hc
                  simp at hc
                  exact Or.inr (Or.inr (Or.inr (Or.inr hc)))
              | false =>
                  rw [hp1] at hc
                  simp at hc
                  exact Or.inr (Or.inr (Or.inr (Or.inl hc)))
            · exact Or.inl ((hex p he).2 c hc)
  -- no whitespace, no underscores, fully lowercase
  have hnws : ∀ c ∈ canonCore ip fp ex, isWs c = false := by
    intro c hc
    rcases hcd c hc with hd | hd | hd | hd | hd
    · exact not_ws_of_digit hd
    · rw [hd]; decide
    · rw [hd]; decide
    · rw [hd]; decide
    · rw [hd]; decide
  have hnus : ∀ c ∈ canonCore ip fp ex, c ≠ '_' := by
    intro c hc
    rcases hcd c hc with hd | hd | hd | hd | hd
    · exact (digit_not_special hd).2.2.1
    · rw [hd]; decide
    · rw [hd]; decide
    · rw [hd]; decide
    · rw [hd]; decide
  have hlow : ∀ c ∈ canonCore ip fp ex, lowCh c = c := by
    intro c hc
    rcases hcd c hc with hd | hd | hd | hd | hd
    · exact lowCh_digit hd
    · rw [hd]; exact lowCh_fixed (by decide)
    · rw [hd]; exact lowCh_fixed (by decide)
    · rw [hd]; exact lowCh_fixed (by decide)
    · rw [hd]; exact lowCh_fixed (by decide)
  -- the core decomposes with a digit head
  have hcore_cons : canonCore ip fp ex = c0 :: (ip' ++ (fpPart fp ++ exPart ex)) := by
    rw [canonCore, hip0, List.append_assoc, List.cons_append]
  -- int() rejects the core
  have hvud : validUD (canonCore ip fp ex) = false := by
    rw [canonCore, validUD, List.append_assoc, udGo_append_digits hip.2]
    have hipne : ip.isEmpty = false := by rw [hip0]; rfl
    rw [hipne]
    cases hf : fp with
    | some f =>
        rw [fpPart, List.cons_append]
        exact udGo_false_head (by decide) (by decide) _
    | none =>
        cases he : ex with
        | none =>
            exfalso
            rcases hpres with hp | hp
            · exact hp hf
            · exact hp he
        | some p =>
            rw [fpPart, exPart, List.nil_append]
            exact udGo_false_head (by decide) (by decide) _
  -- mantissa validity
  have hmant_ip : mantValid ip = true := by
    rw [mantValid,
      splitFirst_none_of
        (fun d hd => by simp [(digit_not_special (hip.2 d hd)).2.2.2.1])]
    exact validUD_digits hip.1 hip.2
  have hmant_ipf : ∀ f, IsDigits f → mantValid (ip ++ '.' :: f) = true := by
    intro f hfd
    rw [mantValid,
      splitFirst_append f
        (fun d hd => by simp [(digit_not_special (hip.2 d hd)).2.2.2.1])
        (by decide)]
    have h1 : ip.isEmpty = false := by rw [hip0]; rfl
    have h2 : f.isEmpty = false := by
      cases hfc : f with
      | nil => exact absurd hfc hfd.1
      | cons a b => rfl
    simp [h1, h2, validUD_digits hip.1 hip.2, validUD_digits hfd.1 hfd.2]
  have hmant_m : mantValid (ip ++ fpPart fp) = true := by
    cases hf : fp with
    | none => rw [fpPart, List.append_nil]; exact hmant_ip
    | some f => rw [fpPart]; exact hmant_ipf f (hfp f hf)
  -- the float grammar accepts the core
  have hip_noE : ∀ d ∈ ip ++ fpPart fp, ((d = 'e' || d = 'E') : Bool) = false := by
    intro d hd
    rcases List.mem_append.mp hd with hd | hd
    · simp [(digit_not_special (hip.2 d hd)).2.2.2.2.1,
        (digit_not_special (hip.2 d hd)).2.2.2.2.2]
    · cases hf : fp with
      | none => rw [hf, fpPart] at hd; simp at hd
      | some f =>
          rw [hf, fpPart] at hd
          rcases List.mem_cons.mp hd with hd | hd
          · rw [hd]; decide
          · simp [(digit_not_special ((hfp f hf).2 d hd)).2.2.2.2.1,
              (digit_not_special ((hfp f hf).2 d hd)).2.2.2.2.2]
  have hmatch : ∀ exv, ex = exv →
      (match splitFirst (fun d => d = 'e' || d = 'E') (canonCore ip fp exv) with
       | none => mantValid (canonCore ip fp exv)
       | some q => mantValid q.1 && expValid q.2) = true := by
    intro exv hexv
    cases exv with
    | none =>
        have hcoreN : canonCore ip fp none = ip ++ fpPart fp := by
          rw [canonCore, exPart, List.append_nil]
        rw [hcoreN, splitFirst_none_of hip_noE]
        exact hmant_m
    | some p =>
        have hpd : IsDigits p.2 := hex p hexv
        have hm : canonCore ip fp (some p) =
            (ip ++ fpPart fp) ++ 'e' :: ((if p.1 then '-' else '+') :: p.2) := by
          rw [canonCore, exPart]
        rw [hm, splitFirst_append _ hip_noE (by decide)]
        have hexp : expValid ((if p.1 then '-' else '+') :: p.2) = true := by
          cases hp1 : p.1 with
          | true =>
              rw [if_pos rfl, expValid,
                show splitSign ('-' :: p.2) = (true, p.2) by simp [splitSign]]
              exact validUD_digits hpd.1 hpd.2
          | false =>
              rw [if_neg (by simp), expValid,
                show splitSign ('+' :: p.2) = (false, p.2) by simp [splitSign]]
              exact validUD_digits hpd.1 hpd.2
        simp [hmant_m, hexp]
  -- the lowercased core is no special literal
  have hspecF : floatSpecials.contains (pyLower (canonCore ip fp ex)) = false := by
    apply contains_false_of_ne
    have hheads : (pyLower (canonCore ip fp ex)).head? = some c0 := by
      rw [hcore_cons, pyLower, List.map_cons, lowCh_digit hc0]
      rfl
    intro y hy he
    have hh := congrArg List.head? he
    rw [hheads] at hh
    fin_cases hy <;>
    · simp at hh
      rw [hh] at hc0
      exact absurd hc0 (by decide)
  -- assemble, by sign
  cases neg with
  | false =>
      rw [if_neg (by simp)] at hr
      subst hr
      have hstrip : pyStrip (canonCore ip fp ex) = canonCore ip fp ex :=
        pyStrip_no_ws hnws
      obtain ⟨hq1, hq2, _, _, _, _⟩ := digit_not_special hc0
      have hsign : splitSign (canonCore ip fp ex) = (false, canonCore ip fp ex) := by
        rw [hcore_cons, splitSign_not_sign _ _ hq1 hq2]
      constructor
      · rw [pyIntParse]
        simp only [hstrip, hsign]
        simp [hvud]
      · have hvalid : pyFloatValid (canonCore ip fp ex) = true := by
          rw [pyFloatValid]
          simp only [hstrip, hsign, hspecF, Bool.false_eq_true, if_false]
          exact hmatch ex rfl
        rw [pyFloatParse, if_pos hvalid, floatClean, hstrip,
          dropUS_fixed_of hnus, pyLower_fixed_of hlow]
  | true =>
      rw [if_pos rfl] at hr
      subst hr
      have hnws2 : ∀ c ∈ '-' :: canonCore ip fp ex, isWs c = false := by
        intro c hc
        rcases List.mem_cons.mp hc with hc | hc
        · rw [hc]; decide
        · exact hnws c hc
      have hstrip : pyStrip ('-' :: canonCore ip fp ex) = '-' :: canonCore ip fp ex :=
        pyStrip_no_ws hnws2
      have hsign : splitSign ('-' :: canonCore ip fp ex) =
          (true, canonCore ip fp ex) := by simp [splitSign]
      constructor
      · rw [pyIntParse]
        simp only [hstrip, hsign]
        simp [hvud]
      · have hvalid : pyFloatValid ('-' :: canonCore ip fp ex) = true := by
          rw [pyFloatValid]
          simp only [hstrip, hsign, hspecF, Bool.false_eq_true, if_false]
          exact hmatch ex rfl
        rw [pyFloatParse, if_pos hvalid, floatClean, hstrip]
        rw [dropUS_fixed_of, pyLower_fixed_of]
        · intro c hc
          rcases List.mem_cons.mp hc with hc | hc
          · rw [hc]; exact lowCh_fixed (by decide)
          · exact hlow c hc
        · intro c hc
          rcases List.mem_cons.mp hc with hc | hc
          · rw [hc]; decide
          · exact hnus c hc


/-- C2 counterexample: the value `" hello "` is a string that parses as
neither a number nor a boolean keyword — so the claim's sniffing exception
does not cover it — yet `update_key` followed by the read coercion returns
`"hello"`, not `" hello "`: surrounding whitespace is lost because the else
branch of `_convert_value` strips the string. -/
theorem roundTrip_strips_string :
    roundTrip (.str (" hello ".toList)) = .str ("hello".toList) ∧
    ("hello".toList : PyStr) ≠ " hello ".toList ∧
    pyIntParse (" hello ".toList) = none ∧
    pyFloatParse (" hello ".toList) = none ∧
    pyLower (pyStrip (" hello ".toList)) ∉ trueKws ∧
    pyLower (pyStrip (" hello ".toList)) ∉ falseKws := by
  refine ⟨by decide, by decide, by decide, by decide, by decide, by decide⟩

/-- C2 amended: serializing with `_convert_to_ini_string` and reading back
through `_convert_value` returns an equal value for every integer and every
boolean; for a string, additionally assuming it carries no surrounding
whitespace (otherwise it comes back stripped) and falls outside the sniffing
ambiguity (parses as neither int, float, nor boolean keyword); and for a
float whose representation is canonical (`str(float)` output, NaN excluded —
NaN also fails reflexive equality in Python). -/
theorem roundTrip_amended :
    (∀ z : Int, roundTrip (.int z) = .int z) ∧
    (∀ b : Bool, roundTrip (.bool b) = .bool b) ∧
    (∀ s : PyStr, pyStrip s = s → pyIntParse s = none → pyFloatParse s = none →
      pyLower s ∉ trueKws → pyLower s ∉ falseKws →
      roundTrip (.str s) = .str s) ∧
    (∀ r : PyStr, IsCanonFloatRepr r → roundTrip (.float r) = .float r) := by
  refine ⟨?_, ?_, ?_, ?_⟩
  · intro z
    rw [roundTrip, convertToIniString]
    simp [convertValue, pyIntParse_intToStr z]
  · intro b
    cases b
    · decide
    · decide
  · intro s h0 h1 h2 h3 h4
    rw [roundTrip, convertToIniString]
    simp [convertValue, h1, h2, h0, h3, h4]
  · intro r hr
    obtain ⟨hi, hf⟩ := canon_float_parse hr
    rw [roundTrip, convertToIniString]
    simp [convertValue, hi, hf]

/-- Witness for C2's amended round-trip at concrete values of all four
types. -/
theorem roundTrip_amended_witness :
    roundTrip (.int 42) = .int 42 ∧
    roundTrip (.bool true) = .bool true ∧
    roundTrip (.str ("hello".toList)) = .str ("hello".toList) ∧
    roundTrip (.float ("2.5".toList)) = .float ("2.5".toList) :=
  ⟨roundTrip_amended.1 42, roundTrip_amended.2.1 true,
   roundTrip_amended.2.2.1 _ (by decide) (by decide) (by decide) (by decide)
     (by decide),
   roundTrip_amended.2.2.2 _
     (Or.inr (Or.inr ⟨false, "2".toList, some ("5".toList), none,
       ⟨by decide, by decide⟩,
       (fun f hf => by cases hf; exact ⟨by decide, by decide⟩),
       (fun p hp => by cases hp),
       Or.inl (by simp),
       by decide⟩))⟩

/-! ### Document Store updates and reads (C6, C7) -/

/-- Walking into a freshly created empty dict can never hit a conflict:
every key below it is missing and is created as a dict. -/
theorem walkCreate_nil_no_err : ∀ ks : List PyStr, (walkCreate [] ks).2 = none := by
  intro ks
  induction ks with
  | nil => rfl
  | cons k ks ih => simp [walkCreate, alookup, ih]

/-- Re-writing a field with the value it already holds is the identity. -/
theorem setField_self {d : List (PyStr × Json)} {k : PyStr} {x : Json}
    (h : alookup d k = some x) : setField d k x = d := by
  induction d with
  | nil => simp [alookup] at h
  | cons kv t ih =>
      obtain ⟨k', v'⟩ := kv
      by_cases hk : k' = k
      · subst hk
        simp [alookup] at h
        simp [setField, h]
      · simp [alookup, hk] at h
        simp [setField, hk, ih h]

/-- If the intermediate walk reports a conflict, it has made no creation:
the tree comes back exactly as it was. -/
theorem walkCreate_err_preserves :
    ∀ (ks : List PyStr) (d : List (PyStr × Json)) (k : PyStr),
      (walkCreate d ks).2 = some k → (walkCreate d ks).1 = d := by
  intro ks
  induction ks with
  | nil => intro d k h; simp [walkCreate] at h
  | cons k0 ks ih =>
      intro d k h
      match hl : alookup d k0 with
      | none =>
          rw [walkCreate, hl] at h ⊢
          simp [walkCreate_nil_no_err] at h
      | some (.obj sub) =>
          rw [walkCreate, hl] at h ⊢
          simp at h ⊢
          rw [ih sub k h]
          exact setField_self hl
      | some .null | some (.bool _) | some (.num _) | some (.str _)
      | some (.arr _) =>
          rw [walkCreate, hl] at h ⊢

/-- C6: dotted-path updates auto-create missing intermediate dicts; an
intermediate that already holds a non-dict value makes `update_data` raise
(`ValueError`, the spec's `PathConflict`) and — whenever that conflict is
raised — the in-memory tree is exactly unchanged; in particular on
`{"a": {"b": 1}}` the call `update_data("a.b.c", 5)` (source defaults
`validate=True`, `expected_type=None`) errors and preserves the tree. -/
theorem updateData_conflict_preserves :
    (∀ (d : List (PyStr × Json)) (key : PyStr) (v : Json) (val : Bool)
        (ety : Option JTy) (k : PyStr),
      (updateData d key v val ety).2 = some (.pathConflict k) →
      (updateData d key v val ety).1 = d) ∧
    updateData demoDoc ("a.b.c".toList) (Json.num 5) true none =
      (demoDoc, some (.pathConflict ("b".toList))) ∧
    updateData [] ("x.y.z".toList) (Json.num 7) true none =
      ([("x".toList,
         Json.obj [("y".toList, Json.obj [("z".toList, Json.num 7)])])], none) := by
  refine ⟨?_, rfl, rfl⟩
  intro d key v val ety k h
  simp only [updateData] at h ⊢
  cases hk : key.isEmpty with
  | true => simp [hk] at h
  | false =>
      simp only [hk, Bool.false_eq_true, if_false] at h ⊢
      cases hw : (walkCreate d (splitCh '.' key).dropLast).2 with
      | some k0 =>
          simp only [hw] at h ⊢
          exact walkCreate_err_preserves _ _ _ hw
      | none =>
          simp only [hw] at h
          split at h <;> simp at h

/-- C7 counterexample: the claim says a dotted-path read with missing keys
yields a not-found sentinel rather than raising, but
`BaseJsonFileHandler.__getitem__` is `self.data[key]`: on `{"a": {"b": 1}}`
reading `"a.b.c"` (missing final key) or even `"a.b"` (a path navigation
would find 1) raises `KeyError` because the literal string is not a
top-level key — while the navigation the spec describes (`specGet`) finds
`1` at `"a.b"` without raising. -/
theorem getitem_raises_on_dotted :
    dictGetItem demoDoc ("a.b.c".toList) = Except.error ("a.b.c".toList) ∧
    dictGetItem demoDoc ("a.b".toList) = Except.error ("a.b".toList) ∧
    specGet demoDoc ("a.b".toList) = some (Json.num 1) ∧
    specGet demoDoc ("a.b.c".toList) = none :=
  ⟨rfl, rfl, rfl, rfl⟩

/-- C7 amended: `__getitem__` is a plain top-level lookup on the raw key —
no dot interpretation — raising `KeyError` exactly when that literal key is
absent; not-found defaults for nested reads exist only in the catalog
helpers (e.g. `get_job_info` returns `{}` for an unknown id). -/
theorem getitem_top_level_lookup :
    (∀ (fields : List (PyStr × Json)) (k : PyStr),
      dictGetItem fields k = Except.error k ↔ alookup fields k = none) ∧
    (∀ (fields : List (PyStr × Json)) (k : PyStr) (v : Json),
      dictGetItem fields k = Except.ok v ↔ alookup fields k = some v) ∧
    dictGetItem demoDoc ("a".toList) =
      Except.ok (Json.obj [("b".toList, Json.num 1)]) ∧
    getJobInfo demoDoc ("9999".toList) = Json.obj [] := by
  refine ⟨?_, ?_, rfl, rfl⟩
  · intro fields k
    rw [dictGetItem]
    cases h : alookup fields k with
    | none => simp
    | some v => simp
  · intro fields k v
    rw [dictGetItem]
    cases h : alookup fields k with
    | none => simp
    | some w => simp

/-! ### Fuzzy lookup (C9) -/

/-- C9 counterexample: on the catalog `{小心心, 小红心, 大心心}` the query
`心心` does return `小心心` and `大心心`, but `小红心` is not ranked below
them — it is excluded from the result entirely, because `心心` is not a
substring of `小红心` and its score is exactly 0, and
`get_job_info_ex` keeps only entries with positive score. -/
theorem hearts_lookup_excludes_third :
    getJobInfoEx heartsCatalog ("心心".toList) =
      [⟨"小心心".toList⟩, ⟨"大心心".toList⟩] ∧
    (⟨"小红心".toList⟩ : JobInfo) ∉ getJobInfoEx heartsCatalog ("心心".toList) := by
  constructor
  · decide
  · decide

/-- C9 amended: querying `心心` on the three-item catalog returns exactly
`小心心` then `大心心` (catalog order; both score 400 = 100 substring
contribution + 300 contiguous bonus), while `小红心` scores 0 and is
excluded from the result rather than merely ranked lower. -/
theorem hearts_lookup_result :
    getJobInfoEx heartsCatalog ("心心".toList) =
      [⟨"小心心".toList⟩, ⟨"大心心".toList⟩] ∧
    (matchScore ("小心心".toList) [("心心".toList)]).eqv (Frac.ofInt 400) = true ∧
    (matchScore ("大心心".toList) [("心心".toList)]).eqv (Frac.ofInt 400) = true ∧
    (matchScore ("小红心".toList) [("心心".toList)]).eqv (Frac.ofInt 0) = true := by
  refine ⟨by decide, by decide, by decide, by decide⟩

/-! ### Witnesses for the theorems with hypotheses -/

/-- Witness for C5 on an empty store and the section name `acct`. -/
theorem readSection_missing_safe_witness :
    ('[' :: ("acct".toList) ++ [']']) ∈
      ((stSave (stReadSection ⟨[], none⟩ ("acct".toList) true).2).disk.getD []) :=
  (readSection_missing_safe ⟨[], none⟩ ("acct".toList) rfl).2.2.2

/-- Witness for C6's conflict-preservation on `{"a": 1}` and path `a.b`. -/
theorem updateData_conflict_preserves_witness :
    (updateData [("a".toList, Json.num 1)] ("a.b".toList) (Json.num 5)
        true none).1 = [("a".toList, Json.num 1)] :=
  updateData_conflict_preserves.1 _ _ _ _ _ ("a".toList) rfl

/-- Witness for C8 on an empty table, one batch update `{K: 1}`. -/
theorem recordStore_frame_witness :
    (stUpdateKey ⟨[], none⟩ ("s".toList) ("K".toList) (IniValue.int 1)).disk
        = (⟨[], none⟩ : IniStore).disk ∧
    lookup2 (updateSectionKeys [] ("s".toList) [("K".toList, IniValue.int 1)])
      ("s".toList) (pyLower ("K".toList)) =
        some (convertToIniString (IniValue.int 1)) ∧
    lookup2 (updateSectionKeys [] ("s".toList) [("K".toList, IniValue.int 1)])
      ("s".toList) ("other".toList) = lookup2 [] ("s".toList) ("other".toList) ∧
    alookup (updateSectionKeys [] ("s".toList) [("K".toList, IniValue.int 1)])
      ("t".toList) = alookup [] ("t".toList) :=
  ⟨recordStore_frame.1 ⟨[], none⟩ _ _ _,
   recordStore_frame.2.2.2.2.2.2 [] _ _ _ _ (by decide) (by decide),
   recordStore_frame.2.2.2.2.2.1 [] _ _ _ (by decide),
   recordStore_frame.2.2.2.2.1 [] _ _ _ (by decide)⟩

/-- Witness for C10 on an empty table with the mixed-case key `Key`. -/
theorem updateKey_lowercase_keys_witness :
    lookup2 (updateKey [] ("s".toList) ("Key".toList) (IniValue.int 7))
      ("s".toList) (pyLower ("Key".toList)) =
        some (convertToIniString (IniValue.int 7)) ∧
    ((lookup2 (updateKey [] ("s".toList) ("Key".toList) (IniValue.int 7))
      ("s".toList) ("Key".toList)).isSome ↔ pyLower ("Key".toList) = "Key".toList) :=
  ⟨updateKey_lowercase_keys.1 [] _ _ _,
   updateKey_lowercase_keys.2.2 [] _ _ _
     (fun ns hm => absurd hm (List.not_mem_nil _))⟩

end AsteXM
